import Mathlib

/-!
Shallow embedding of the qdynos Redfield dynamics core
(`src/redfield.py`, `src/hamiltonian.py`,
`src/working_dir/sparse/qdynos/utils.py`) and proofs about it.

Complex N-by-N numpy arrays are modelled as `Matrix (Fin N) (Fin N) ℂ`;
numpy's `*` on two equally shaped arrays is the elementwise product
`emul`; `np.dot` is matrix multiplication `*`; raising an exception is
modelled as returning `Except.error`.  The `Integrator`, `Bath`,
`Options` and `Results` collaborators are external to the repository:
they enter only through their consumed interface (stage count `order`,
abscissae `b`, bath correlation functions, the sampling stride `every`,
the `markov_time` cutoff), which is carried as explicit parameters.
-/

namespace QDynos

noncomputable section

/-- Square complex matrices of size N, the working type of the engine. -/
abbrev Mat (N : ℕ) := Matrix (Fin N) (Fin N) ℂ

/-- utils.dag: conjugate transpose of an operator. -/
def dag {m n : ℕ} (op : Matrix (Fin m) (Fin n) ℂ) : Matrix (Fin n) (Fin m) ℂ :=
  op.conjTranspose

/-- utils.commutator: `op1.dot(op2) - op2.dot(op1)`. -/
def commutator {N : ℕ} (op1 op2 : Mat N) : Mat N :=
  op1 * op2 - op2 * op1

/-- Elementwise product, numpy's `*` on two equally shaped square arrays. -/
def emul {N : ℕ} (A B : Mat N) : Mat N :=
  Matrix.of fun i j => A i j * B i j

/-- utils.is_vector: the first and second dimensions differ. -/
def is_vector (r c : ℕ) : Bool := r != c

/-- utils.is_matrix: the first and second dimensions are equal. -/
def is_matrix (r c : ℕ) : Bool := r == c

/-- Hamiltonian.compute_frequencies: `omegas[i,j] = (ev[i]-ev[j])/hbar`. -/
def omegas {N : ℕ} (ev : Fin N → ℝ) (hbar : ℝ) : Matrix (Fin N) (Fin N) ℝ :=
  Matrix.of fun i j => (ev i - ev j) / hbar

/-- Hamiltonian.to_eigenbasis: `dag(ek)·op` on a shape-classified vector,
`dag(ek)·op·ek` on a shape-classified square matrix, otherwise an
`AttributeError`.  The operand has `N` rows (matching `ek`) and `m`
columns; `Matrix.reindex` records that in the square branch the column
count coincides with `N`. -/
def to_eigenbasis {N m : ℕ} (ek : Mat N) (op : Matrix (Fin N) (Fin m) ℂ) :
    Except String (Matrix (Fin N) (Fin m) ℂ) :=
  if _hv : N ≠ m then Except.ok (dag ek * op)
  else if hm : N = m then
    Except.ok (dag ek * op * Matrix.reindex (finCongr hm) (finCongr hm) ek)
  else Except.error "Not a valid operator"

/-- Hamiltonian.from_eigenbasis: `ek·op` on a vector, `ek·op·dag(ek)` on a
square matrix, otherwise an `AttributeError`. -/
def from_eigenbasis {N m : ℕ} (ek : Mat N) (op : Matrix (Fin N) (Fin m) ℂ) :
    Except String (Matrix (Fin N) (Fin m) ℂ) :=
  if _hv : N ≠ m then Except.ok (ek * op)
  else if hm : N = m then
    Except.ok (ek * op * Matrix.reindex (finCongr hm) (finCongr hm) (dag ek))
  else Except.error "Not a valid operator"

/-- The square-matrix branch of to_eigenbasis, as used by the Redfield
engine on coupling operators and density matrices. -/
def to_eig {N : ℕ} (ek : Mat N) (op : Mat N) : Mat N :=
  dag ek * op * ek

/-- Hamiltonian.commutator with `eig=True`:
`np.dot(np.diag(ev),op) - np.dot(op,np.diag(ev))`. -/
def ham_commutator {N : ℕ} (ev : Fin N → ℝ) (op : Mat N) : Mat N :=
  Matrix.diagonal (fun i => (ev i : ℂ)) * op -
    op * Matrix.diagonal (fun i => (ev i : ℂ))

/-- Bath interface consumed by the Redfield engine: a coupling operator,
the real-time bath correlation function (elementwise value; a scalar
correlation function is the constant-matrix special case), and the
one-sided Fourier-Laplace transform of the correlation function. -/
structure Bath (N : ℕ) where
  c_op : Mat N
  bath_corr_t : ℝ → Mat N
  ft_bath_corr : ℝ → ℂ

instance {N : ℕ} : Inhabited (Bath N) :=
  ⟨⟨0, fun _ => 0, fun _ => 0⟩⟩

/-- Redfield.make_redfield_operators: for each bath, transform the
coupling operator to the eigenbasis, build
`theta_plus[i,j] = ft_bath_corr(-omegas[i,j])`, and append the bare and
dressed (`Ga*theta_plus`, elementwise) operators to the C and E lists. -/
def make_redfield_operators {N : ℕ} (ek : Mat N) (ev : Fin N → ℝ)
    (hbar : ℝ) (baths : List (Bath N)) : List (Mat N) × List (Mat N) :=
  baths.foldl
    (fun CE bath =>
      let Ga := to_eig ek bath.c_op
      let theta_plus : Mat N :=
        Matrix.of fun i j => bath.ft_bath_corr (-(omegas ev hbar i j))
      let Ga_plus := emul Ga theta_plus
      (CE.1 ++ [Ga], CE.2 ++ [Ga_plus]))
    ([], [])

/-- C6: the transition-frequency matrix built by compute_frequencies is
antisymmetric (`omegas[i,j] = -omegas[j,i]`) and zero on the diagonal
(`omegas[i,i] = 0`), for every eigenvalue vector and every hbar. -/
theorem omegas_antisymm_and_diag_zero {N : ℕ} (ev : Fin N → ℝ) (hbar : ℝ)
    (i j : Fin N) :
    omegas ev hbar i j = -(omegas ev hbar j i) ∧ omegas ev hbar i i = 0 := by
  constructor
  · simp only [omegas, Matrix.of_apply]
    ring
  · simp [omegas]

/-- C5: assuming the eigenvector matrix is unitary (`dag ek * ek = 1`),
to_eigenbasis after from_eigenbasis is the identity, on every operand
that is shape-classified as a vector and on every operand classified as
a square matrix. -/
theorem to_from_eigenbasis_round_trip {N m : ℕ} (ek : Mat N)
    (hek : dag ek * ek = 1) (op : Matrix (Fin N) (Fin m) ℂ) :
    (from_eigenbasis ek op).bind (fun x => to_eigenbasis ek x) =
      Except.ok op := by
  by_cases h : N = m
  · subst h
    have hek2 : ek * dag ek = 1 := Matrix.mul_eq_one_comm.mp hek
    simp only [from_eigenbasis, to_eigenbasis, ne_eq, not_true_eq_false,
      dif_neg, not_false_iff, dif_pos, finCongr_refl, Matrix.reindex_refl_refl,
      Except.bind, Except.ok.injEq]
    rw [show dag ek * (ek * op * dag ek) * ek = dag ek * ek * op * (dag ek * ek)
      from by simp only [Matrix.mul_assoc], hek, Matrix.one_mul, Matrix.mul_one]
  · simp only [from_eigenbasis, to_eigenbasis, dif_pos h, Except.bind]
    rw [← Matrix.mul_assoc, hek, Matrix.one_mul]

/-- Concrete 2-row, 1-column operand used to instantiate theorems whose
statements carry hypotheses. -/
def sampleVec : Matrix (Fin 2) (Fin 1) ℂ :=
  Matrix.of fun _ _ => 1

/-- Witness for C5: the round trip applied to the identity eigenvector
matrix and a concrete column vector. -/
theorem to_from_eigenbasis_round_trip_witness :
    (from_eigenbasis (1 : Mat 2) sampleVec).bind
        (fun x => to_eigenbasis (1 : Mat 2) x) =
      Except.ok sampleVec :=
  to_from_eigenbasis_round_trip (1 : Mat 2) (by simp [dag]) sampleVec

/-- C9: in to_eigenbasis and from_eigenbasis, an operand that is neither
shape-classified as a vector nor as a square matrix would fail with the
"Not a valid operator" error (vacuously, as the two classifications are
complementary: every operand falls under one of them), and every
classified operand is returned basis-changed without error. -/
theorem eigenbasis_shape_dispatch {N : ℕ} (ek : Mat N) :
    (∀ (m : ℕ) (op : Matrix (Fin N) (Fin m) ℂ),
        is_vector N m = false → is_matrix N m = false →
        to_eigenbasis ek op = Except.error "Not a valid operator" ∧
        from_eigenbasis ek op = Except.error "Not a valid operator") ∧
    (∀ (m : ℕ) (op : Matrix (Fin N) (Fin m) ℂ),
        is_vector N m = true →
        to_eigenbasis ek op = Except.ok (dag ek * op) ∧
        from_eigenbasis ek op = Except.ok (ek * op)) ∧
    (∀ op : Mat N,
        to_eigenbasis ek op = Except.ok (dag ek * op * ek) ∧
        from_eigenbasis ek op = Except.ok (ek * op * dag ek)) ∧
    (∀ m : ℕ, is_vector N m = true ∨ is_matrix N m = true) := by
  refine ⟨?_, ?_, ?_, ?_⟩
  · intro m op hv hm
    have h1 : N = m := by simpa [is_vector] using hv
    have h2 : N ≠ m := by simpa [is_matrix] using hm
    exact absurd h1 h2
  · intro m op hv
    have h : N ≠ m := by simpa [is_vector] using hv
    constructor <;> simp [to_eigenbasis, from_eigenbasis, dif_pos h]
  · intro op
    constructor <;>
      simp [to_eigenbasis, from_eigenbasis, finCongr_refl,
        Matrix.reindex_refl_refl]
  · intro m
    rcases eq_or_ne N m with h | h
    · exact Or.inr (by simp [is_matrix, h])
    · exact Or.inl (by simp [is_vector, h])

/-- Witness for C9: the vector clause applied to a concrete 2-by-1
operand with the identity eigenvector matrix. -/
theorem eigenbasis_shape_dispatch_witness :
    to_eigenbasis (1 : Mat 2) sampleVec = Except.ok (dag 1 * sampleVec) ∧
    from_eigenbasis (1 : Mat 2) sampleVec =
      Except.ok ((1 : Mat 2) * sampleVec) :=
  (eigenbasis_shape_dispatch (1 : Mat 2)).2.1 1 sampleVec (by decide)

/-- A fold that appends one element to each of two accumulated lists per
input element produces the pair of maps, prefixed by the accumulator. -/
theorem foldl_snoc_pair {α β γ : Type} (f : α → β) (g : α → γ) :
    ∀ (l : List α) (acc : List β × List γ),
      l.foldl (fun CE x => (CE.1 ++ [f x], CE.2 ++ [g x])) acc =
        (acc.1 ++ l.map f, acc.2 ++ l.map g)
  | [], acc => by simp
  | x :: xs, acc => by
    simp only [List.foldl_cons, List.map_cons]
    rw [foldl_snoc_pair f g xs]
    simp

/-- C4: in time-independent setup, the engine stores, for each bath in
bath order, the eigenbasis-transformed coupling operator in C and its
elementwise product with `theta_plus[i,j] = ft_bath_corr(-omegas[i,j])`
in E; both lists have exactly one entry per bath. -/
theorem make_redfield_operators_per_bath {N : ℕ} (ek : Mat N)
    (ev : Fin N → ℝ) (hbar : ℝ) (baths : List (Bath N)) :
    make_redfield_operators ek ev hbar baths =
      (baths.map fun bath => to_eig ek bath.c_op,
       baths.map fun bath =>
         emul (to_eig ek bath.c_op)
           (Matrix.of fun i j => bath.ft_bath_corr (-(omegas ev hbar i j)))) ∧
    (make_redfield_operators ek ev hbar baths).1.length = baths.length ∧
    (make_redfield_operators ek ev hbar baths).2.length = baths.length := by
  have hmain : make_redfield_operators ek ev hbar baths =
      (baths.map fun bath => to_eig ek bath.c_op,
       baths.map fun bath =>
         emul (to_eig ek bath.c_op)
           (Matrix.of fun i j =>
             bath.ft_bath_corr (-(omegas ev hbar i j)))) := by
    have h := foldl_snoc_pair
      (fun (bath : Bath N) => to_eig ek bath.c_op)
      (fun (bath : Bath N) =>
        emul (to_eig ek bath.c_op)
          (Matrix.of fun i j => bath.ft_bath_corr (-(omegas ev hbar i j))))
      baths ([], [])
    simpa [make_redfield_operators] using h
  refine ⟨hmain, ?_, ?_⟩ <;> rw [hmain] <;> simp

/-- Redfield.rf_eom: start from `(-1j/hbar)*ham.commutator(state)` and,
for each bath j, add
`(commutator(E[j]·state, C[j]) + commutator(C[j], state·dag(E[j])))/hbar²`. -/
def rf_eom {N nb : ℕ} (ev : Fin N → ℝ) (hbar : ℝ) (C E : Fin nb → Mat N)
    (state : Mat N) : Mat N :=
  (List.finRange nb).foldl
    (fun dy j => dy + ((1 : ℂ) / (hbar : ℂ) ^ 2) •
      (commutator (E j * state) (C j) +
        commutator (C j) (state * dag (E j))))
    ((-Complex.I / (hbar : ℂ)) • ham_commutator ev state)

/-- Redfield.td_rf_eom: as rf_eom, but each bath's dressed operator is
selected by the integrator stage index passed by the integrator. -/
def td_rf_eom {N nb : ℕ} (ev : Fin N → ℝ) (hbar : ℝ) (C : Fin nb → Mat N)
    (E : Fin nb → ℕ → Mat N) (state : Mat N) (stage : ℕ) : Mat N :=
  (List.finRange nb).foldl
    (fun dy j => dy + ((1 : ℂ) / (hbar : ℂ) ^ 2) •
      (commutator (E j stage * state) (C j) +
        commutator (C j) (state * dag (E j stage))))
    ((-Complex.I / (hbar : ℂ)) • ham_commutator ev state)

/-- Modelled from the spec equation
`dρ/dt = -(i/ħ)[H, ρ]_eig + Σ_k { [E_k ρ, C_k] + [C_k, ρ E_k†] } / ħ²`,
for comparison with the engine's equation-of-motion callables. -/
def redfield_eom_formula {N nb : ℕ} (ev : Fin N → ℝ) (hbar : ℝ)
    (C E : Fin nb → Mat N) (state : Mat N) : Mat N :=
  (-Complex.I / (hbar : ℂ)) • ham_commutator ev state +
    ((1 : ℂ) / (hbar : ℂ) ^ 2) •
      ∑ k : Fin nb, (commutator (E k * state) (C k) +
        commutator (C k) (state * dag (E k)))

/-- Folding `+ f x` over a list starting from `init` is `init` plus the
sum of the mapped list. -/
theorem foldl_add_eq_sum {α M : Type} [AddCommMonoid M] (f : α → M) :
    ∀ (l : List α) (init : M),
      l.foldl (fun acc x => acc + f x) init = init + (l.map f).sum
  | [], init => by simp
  | x :: xs, init => by
    simp only [List.foldl_cons, List.map_cons, List.sum_cons]
    rw [foldl_add_eq_sum f xs]
    rw [add_assoc]

/-- theta_plus at time t: `np.exp(-1j*omegas*t)*bath_corr_t(t)`,
elementwise over the frequency matrix. -/
def theta_plus_t {N : ℕ} (om : Matrix (Fin N) (Fin N) ℝ) (bath : Bath N)
    (t : ℝ) : Mat N :=
  Matrix.of fun i j =>
    Complex.exp (-Complex.I * (om i j : ℂ) * (t : ℂ)) *
      bath.bath_corr_t t i j

/-- Per-bath stage-list builder shared by coupling_operators_setup and
make_tcl2_operators: one (accumulated, instantaneous) pair is appended
per stage; stage 0 appends the seed `f0`, stage k>0 appends `fstep k`
applied to the pair written at stage k-1. -/
def build_gamma {N : ℕ} (f0 : Mat N × Mat N)
    (fstep : ℕ → Mat N → Mat N → Mat N × Mat N) :
    ℕ → List (Mat N) × List (Mat N)
  | 0 => ([], [])
  | k + 1 =>
    let p := build_gamma f0 fstep k
    let new := if k = 0 then f0 else
      fstep k (p.1.getD (k - 1) 0) (p.2.getD (k - 1) 0)
    (p.1 ++ [new.1], p.2 ++ [new.2])

theorem build_gamma_succ {N : ℕ} (f0 : Mat N × Mat N)
    (fstep : ℕ → Mat N → Mat N → Mat N × Mat N) (K : ℕ) :
    build_gamma f0 fstep (K + 1) =
      ((build_gamma f0 fstep K).1 ++
        [(if K = 0 then f0 else
          fstep K ((build_gamma f0 fstep K).1.getD (K - 1) 0)
            ((build_gamma f0 fstep K).2.getD (K - 1) 0)).1],
       (build_gamma f0 fstep K).2 ++
        [(if K = 0 then f0 else
          fstep K ((build_gamma f0 fstep K).1.getD (K - 1) 0)
            ((build_gamma f0 fstep K).2.getD (K - 1) 0)).2]) := by
  rw [build_gamma]

theorem build_gamma_length {N : ℕ} (f0 : Mat N × Mat N)
    (fstep : ℕ → Mat N → Mat N → Mat N × Mat N) :
    ∀ K : ℕ, (build_gamma f0 fstep K).1.length = K ∧
      (build_gamma f0 fstep K).2.length = K := by
  intro K
  induction K with
  | zero => simp [build_gamma]
  | succ K ih =>
    rw [build_gamma_succ]
    simp [ih.1, ih.2]

theorem build_gamma_stable {N : ℕ} (f0 : Mat N × Mat N)
    (fstep : ℕ → Mat N → Mat N → Mat N × Mat N) (K i : ℕ) (h : i < K) :
    (build_gamma f0 fstep (K + 1)).1.getD i 0 =
      (build_gamma f0 fstep K).1.getD i 0 ∧
    (build_gamma f0 fstep (K + 1)).2.getD i 0 =
      (build_gamma f0 fstep K).2.getD i 0 := by
  rw [build_gamma_succ]
  constructor
  · exact List.getD_append _ _ _ _
      (by rw [(build_gamma_length f0 fstep K).1]; exact h)
  · exact List.getD_append _ _ _ _
      (by rw [(build_gamma_length f0 fstep K).2]; exact h)

theorem build_gamma_getD_zero {N : ℕ} (f0 : Mat N × Mat N)
    (fstep : ℕ → Mat N → Mat N → Mat N × Mat N) (K : ℕ) (hK : 0 < K) :
    (build_gamma f0 fstep K).1.getD 0 0 = f0.1 ∧
    (build_gamma f0 fstep K).2.getD 0 0 = f0.2 := by
  induction K with
  | zero => omega
  | succ K ih =>
    rcases Nat.eq_zero_or_pos K with h | h
    · subst h
      rw [build_gamma_succ]
      simp [build_gamma]
    · rw [(build_gamma_stable f0 fstep K 0 h).1,
        (build_gamma_stable f0 fstep K 0 h).2]
      exact ih h

theorem build_gamma_getD_succ {N : ℕ} (f0 : Mat N × Mat N)
    (fstep : ℕ → Mat N → Mat N → Mat N × Mat N) (k K : ℕ)
    (hk : 0 < k) (hkK : k < K) :
    (build_gamma f0 fstep K).1.getD k 0 =
      (fstep k ((build_gamma f0 fstep K).1.getD (k - 1) 0)
        ((build_gamma f0 fstep K).2.getD (k - 1) 0)).1 ∧
    (build_gamma f0 fstep K).2.getD k 0 =
      (fstep k ((build_gamma f0 fstep K).1.getD (k - 1) 0)
        ((build_gamma f0 fstep K).2.getD (k - 1) 0)).2 := by
  induction K with
  | zero => omega
  | succ K ih =>
    rcases Nat.lt_succ_iff_lt_or_eq.mp hkK with h | h
    · have hs := build_gamma_stable f0 fstep K k h
      have hs' := build_gamma_stable f0 fstep K (k - 1) (by omega)
      rw [hs.1, hs.2, hs'.1, hs'.2]
      exact ih h
    · subst h
      have hlen1 := (build_gamma_length f0 fstep k).1
      have hlen2 := (build_gamma_length f0 fstep k).2
      have hprev1 : (build_gamma f0 fstep (k + 1)).1.getD (k - 1) 0 =
          (build_gamma f0 fstep k).1.getD (k - 1) 0 :=
        (build_gamma_stable f0 fstep k (k - 1) (by omega)).1
      have hprev2 : (build_gamma f0 fstep (k + 1)).2.getD (k - 1) 0 =
          (build_gamma f0 fstep k).2.getD (k - 1) 0 :=
        (build_gamma_stable f0 fstep k (k - 1) (by omega)).2
      rw [hprev1, hprev2, build_gamma_succ]
      have hne : ¬(k = 0) := by omega
      constructor
      · rw [List.getD_append_right _ _ _ _ hlen1.le, hlen1]
        simp [hne]
      · rw [List.getD_append_right _ _ _ _ hlen2.le, hlen2]
        simp [hne]

/-- Redfield.coupling_operators_setup, gamma lists for one bath: stage 0
seeds the accumulator with the zero matrix and the instantaneous sample
with `np.exp(-1j*omegas*0.0)*bath_corr_t(0.0)`; stage k>0 uses
`t = b[k]*dt` and appends
`gamma_n[k-1] + 0.5*(b[k]-b[k-1])*dt*(theta_plus + gamma_n_1[k-1])`
and `theta_plus`. -/
def setup_gamma_lists {N : ℕ} (om : Matrix (Fin N) (Fin N) ℝ)
    (bath : Bath N) (b : ℕ → ℝ) (dt : ℝ) (order : ℕ) :
    List (Mat N) × List (Mat N) :=
  build_gamma
    (0, theta_plus_t om bath 0)
    (fun k gprev hprev =>
      let t := b k * dt
      let th := theta_plus_t om bath t
      (gprev + (0.5 * (b k - b (k - 1)) * dt) • (th + hprev), th))
    order

/-- Redfield.coupling_operators_setup over all baths: C collects the
eigenbasis-transformed coupling operators; gamma_n and gamma_n_1 collect
each bath's stage lists. -/
def coupling_operators_setup {N : ℕ} (ek : Mat N)
    (om : Matrix (Fin N) (Fin N) ℝ) (baths : List (Bath N)) (b : ℕ → ℝ)
    (dt : ℝ) (order : ℕ) :
    List (Mat N) × List (List (Mat N)) × List (List (Mat N)) :=
  (baths.map fun bath => to_eig ek bath.c_op,
   baths.map fun bath => (setup_gamma_lists om bath b dt order).1,
   baths.map fun bath => (setup_gamma_lists om bath b dt order).2)

theorem getD_map_range {α : Type} (f : ℕ → α) (n i : ℕ) (h : i < n)
    (d : α) : ((List.range n).map f).getD i d = f i := by
  rw [List.getD_eq_getElem _ _ (by simpa using h), List.getElem_map,
    List.getElem_range]

theorem getD_map_of_lt {α β : Type} [Inhabited α] (f : α → β)
    (l : List α) (i : ℕ) (h : i < l.length) (d : β) :
    (l.map f).getD i d = f (l.getD i default) := by
  rw [List.getD_eq_getElem _ _ (by simpa using h), List.getElem_map,
    List.getD_eq_getElem _ _ h]

/-- C2: in time-dependent setup, for every bath index and every stage
below the integrator order, gamma_n is seeded with the zero matrix at
stage 0 while gamma_n_1 holds `exp(-i*omegas*0)*bath_corr_t(0)`, and at
stage k>0 with `t = b[k]*dt` the lists satisfy
`gamma_n[k] = gamma_n[k-1] + 0.5*(b[k]-b[k-1])*dt*(theta_plus(t) + gamma_n_1[k-1])`
and `gamma_n_1[k] = theta_plus(t)`. -/
theorem coupling_operators_setup_recurrence {N : ℕ} (ek : Mat N)
    (om : Matrix (Fin N) (Fin N) ℝ) (baths : List (Bath N)) (b : ℕ → ℝ)
    (dt : ℝ) (order : ℕ) (i : ℕ) (hi : i < baths.length) :
    ((coupling_operators_setup ek om baths b dt order).2.1.getD i
        []).length = order ∧
    ((coupling_operators_setup ek om baths b dt order).2.2.getD i
        []).length = order ∧
    (0 < order →
      ((coupling_operators_setup ek om baths b dt order).2.1.getD i
          []).getD 0 0 = 0 ∧
      ((coupling_operators_setup ek om baths b dt order).2.2.getD i
          []).getD 0 0 = theta_plus_t om (baths.getD i default) 0) ∧
    (∀ k : ℕ, 0 < k → k < order →
      ((coupling_operators_setup ek om baths b dt order).2.1.getD i
          []).getD k 0 =
        ((coupling_operators_setup ek om baths b dt order).2.1.getD i
            []).getD (k - 1) 0 +
          (0.5 * (b k - b (k - 1)) * dt) •
            (theta_plus_t om (baths.getD i default) (b k * dt) +
              ((coupling_operators_setup ek om baths b dt order).2.2.getD i
                  []).getD (k - 1) 0) ∧
      ((coupling_operators_setup ek om baths b dt order).2.2.getD i
          []).getD k 0 =
        theta_plus_t om (baths.getD i default) (b k * dt)) := by
  have h1 : (coupling_operators_setup ek om baths b dt order).2.1.getD i
      [] = (setup_gamma_lists om (baths.getD i default) b dt order).1 := by
    rw [coupling_operators_setup]
    exact getD_map_of_lt _ baths i hi []
  have h2 : (coupling_operators_setup ek om baths b dt order).2.2.getD i
      [] = (setup_gamma_lists om (baths.getD i default) b dt order).2 := by
    rw [coupling_operators_setup]
    exact getD_map_of_lt _ baths i hi []
  rw [h1, h2, setup_gamma_lists]
  refine ⟨(build_gamma_length _ _ order).1, (build_gamma_length _ _ order).2,
    fun ho => build_gamma_getD_zero _ _ order ho, fun k hk hko => ?_⟩
  have hs := build_gamma_getD_succ
    (0, theta_plus_t om (baths.getD i default) 0)
    (fun k gprev hprev =>
      let t := b k * dt
      let th := theta_plus_t om (baths.getD i default) t
      (gprev + (0.5 * (b k - b (k - 1)) * dt) • (th + hprev), th))
    k order hk hko
  exact ⟨hs.1, hs.2⟩

/-- Witness for C2: the length clause evaluated on one default bath with
one integrator stage. -/
theorem coupling_operators_setup_recurrence_witness :
    ((coupling_operators_setup (1 : Mat 1) 0 [default] (fun _ => 0) 1
        1).2.1.getD 0 []).length = 1 :=
  (coupling_operators_setup_recurrence (1 : Mat 1) 0 [default]
    (fun _ => 0) 1 1 0 (by simp)).1

/-- Mutable engine state of the time-dependent variant: coupling
operators, dressed operators (one list per bath, one entry per stage),
and the gamma_n / gamma_n_1 recurrence state. -/
structure TDState (N : ℕ) where
  C : List (Mat N)
  E : List (List (Mat N))
  gamma_n : List (List (Mat N))
  gamma_n_1 : List (List (Mat N))

/-- Redfield.make_tcl2_operators, per-bath stage lists at base time
`time`: stage 0 reseeds the accumulator from the old list's final entry
(`gamma_n[op][-1]`) and samples theta_plus at `t = time + b[0]*dt`;
stage k>0 appends the trapezoid update
`gamma_n[k-1] + 0.5*dt*(b[k]-b[k-1])*(theta_plus + gamma_n_1[k-1])`
with `t = time + b[k]*dt`. -/
def tcl2_gamma_lists {N : ℕ} (om : Matrix (Fin N) (Fin N) ℝ)
    (bath : Bath N) (b : ℕ → ℝ) (dt : ℝ) (time : ℝ)
    (gn_old : List (Mat N)) (order : ℕ) : List (Mat N) × List (Mat N) :=
  build_gamma
    (gn_old.getLastD 0, theta_plus_t om bath (time + b 0 * dt))
    (fun k gprev hprev =>
      let t := time + b k * dt
      let th := theta_plus_t om bath t
      (gprev + (0.5 * dt * (b k - b (k - 1))) • (th + hprev), th))
    order

/-- Redfield.make_tcl2_operators: rebuild both recurrence lists for
every bath index, in place. -/
def make_tcl2_operators {N : ℕ} (om : Matrix (Fin N) (Fin N) ℝ)
    (baths : List (Bath N)) (b : ℕ → ℝ) (dt : ℝ) (order : ℕ)
    (time : ℝ) (st : TDState N) : TDState N :=
  { st with
    gamma_n := (List.range baths.length).map fun op =>
      (tcl2_gamma_lists om (baths.getD op default) b dt time
        (st.gamma_n.getD op []) order).1,
    gamma_n_1 := (List.range baths.length).map fun op =>
      (tcl2_gamma_lists om (baths.getD op default) b dt time
        (st.gamma_n.getD op []) order).2 }

/-- The dressed-operator refresh loop of Redfield.update_ops:
`E[i][j] = gamma_n[i][j]*C[i]` (elementwise product) for every bath
index i and stage j. -/
def dressed_ops {N : ℕ} (order : ℕ) (gamma_n : List (List (Mat N)))
    (C : List (Mat N)) : List (List (Mat N)) :=
  (List.range C.length).map fun i =>
    (List.range order).map fun j =>
      emul ((gamma_n.getD i []).getD j 0) (C.getD i 0)

/-- Redfield.update_ops: refresh the dressed operators from the current
recurrence state, then advance the recurrence via make_tcl2_operators
only while `time < markov_time`. -/
def update_ops {N : ℕ} (om : Matrix (Fin N) (Fin N) ℝ)
    (baths : List (Bath N)) (b : ℕ → ℝ) (dt : ℝ) (order : ℕ)
    (markov_time : ℝ) (time : ℝ) (st : TDState N) : TDState N :=
  let st1 := { st with E := dressed_ops order st.gamma_n st.C }
  if time < markov_time then
    make_tcl2_operators om baths b dt order time st1
  else st1

/-- C3: update_ops first recomputes every dressed operator from the
recurrence state as it stood before the call; it advances the
trapezoidal recurrence exactly when `time < markov_time` (stage 0
carrying forward the previous step's final accumulated value, stage k>0
applying the trapezoid update at `t = time + b[k]*dt`), and for
`time >= markov_time` it leaves gamma_n and gamma_n_1 entirely
unchanged, so later calls keep returning the same dressed operators. -/
theorem update_ops_spec {N : ℕ} (om : Matrix (Fin N) (Fin N) ℝ)
    (baths : List (Bath N)) (b : ℕ → ℝ) (dt : ℝ) (order : ℕ)
    (markov_time time : ℝ) (st : TDState N) :
    (update_ops om baths b dt order markov_time time st).E =
      dressed_ops order st.gamma_n st.C ∧
    (update_ops om baths b dt order markov_time time st).C = st.C ∧
    (¬ time < markov_time →
      (update_ops om baths b dt order markov_time time st).gamma_n =
        st.gamma_n ∧
      (update_ops om baths b dt order markov_time time st).gamma_n_1 =
        st.gamma_n_1 ∧
      ∀ t2 : ℝ, ¬ t2 < markov_time →
        (update_ops om baths b dt order markov_time t2
            (update_ops om baths b dt order markov_time time st)).E =
          (update_ops om baths b dt order markov_time time st).E) ∧
    (time < markov_time →
      (update_ops om baths b dt order markov_time time st).gamma_n.length
          = baths.length ∧
      (update_ops om baths b dt order markov_time time
          st).gamma_n_1.length = baths.length ∧
      ∀ i : ℕ, i < baths.length →
        ((update_ops om baths b dt order markov_time time st).gamma_n.getD
            i []).length = order ∧
        ((update_ops om baths b dt order markov_time time
            st).gamma_n_1.getD i []).length = order ∧
        (0 < order →
          ((update_ops om baths b dt order markov_time time
              st).gamma_n.getD i []).getD 0 0 =
            (st.gamma_n.getD i []).getLastD 0 ∧
          ((update_ops om baths b dt order markov_time time
              st).gamma_n_1.getD i []).getD 0 0 =
            theta_plus_t om (baths.getD i default) (time + b 0 * dt)) ∧
        ∀ k : ℕ, 0 < k → k < order →
          ((update_ops om baths b dt order markov_time time
              st).gamma_n.getD i []).getD k 0 =
            ((update_ops om baths b dt order markov_time time
                st).gamma_n.getD i []).getD (k - 1) 0 +
              (0.5 * dt * (b k - b (k - 1))) •
                (theta_plus_t om (baths.getD i default) (time + b k * dt) +
                  ((update_ops om baths b dt order markov_time time
                      st).gamma_n_1.getD i []).getD (k - 1) 0) ∧
          ((update_ops om baths b dt order markov_time time
              st).gamma_n_1.getD i []).getD k 0 =
            theta_plus_t om (baths.getD i default) (time + b k * dt)) := by
  by_cases ht : time < markov_time
  · refine ⟨by simp [update_ops, make_tcl2_operators, ht], by
      simp [update_ops, make_tcl2_operators, ht], fun h => absurd ht h,
      fun _ => ?_⟩
    have hgn : (update_ops om baths b dt order markov_time time
        st).gamma_n = (List.range baths.length).map fun op =>
          (tcl2_gamma_lists om (baths.getD op default) b dt time
            (st.gamma_n.getD op []) order).1 := by
      simp [update_ops, make_tcl2_operators, ht]
    have hgn1 : (update_ops om baths b dt order markov_time time
        st).gamma_n_1 = (List.range baths.length).map fun op =>
          (tcl2_gamma_lists om (baths.getD op default) b dt time
            (st.gamma_n.getD op []) order).2 := by
      simp [update_ops, make_tcl2_operators, ht]
    refine ⟨by rw [hgn]; simp, by rw [hgn1]; simp, fun i hi => ?_⟩
    rw [hgn, hgn1, getD_map_range _ _ i hi, getD_map_range _ _ i hi,
      tcl2_gamma_lists]
    refine ⟨(build_gamma_length _ _ order).1,
      (build_gamma_length _ _ order).2,
      fun ho => build_gamma_getD_zero _ _ order ho, fun k hk hko => ?_⟩
    have hs := build_gamma_getD_succ
      ((st.gamma_n.getD i []).getLastD 0,
        theta_plus_t om (baths.getD i default) (time + b 0 * dt))
      (fun k gprev hprev =>
        let t := time + b k * dt
        let th := theta_plus_t om (baths.getD i default) t
        (gprev + (0.5 * dt * (b k - b (k - 1))) • (th + hprev), th))
      k order hk hko
    exact ⟨hs.1, hs.2⟩
  · refine ⟨by simp [update_ops, ht], by simp [update_ops, ht],
      fun _ => ⟨by simp [update_ops, ht], by simp [update_ops, ht],
        fun t2 ht2 => by simp [update_ops, ht, ht2]⟩,
      fun h => absurd h ht⟩

/-- Concrete time-dependent engine state used to instantiate theorems
whose statements carry hypotheses. -/
def sampleTDState : TDState 1 := ⟨[], [], [], []⟩

/-- Witness for C3: beyond the markov time the recurrence state is left
unchanged. -/
theorem update_ops_spec_witness :
    (update_ops (0 : Matrix (Fin 1) (Fin 1) ℝ) [] (fun _ => 0) 1 1 0 1
        sampleTDState).gamma_n = sampleTDState.gamma_n :=
  ((update_ops_spec (0 : Matrix (Fin 1) (Fin 1) ℝ) [] (fun _ => 0) 1 1 0
      1 sampleTDState).2.2.1 (by norm_num)).1

/-- C1: both equation-of-motion callables return exactly
`-(i/ħ)[H,ρ]_eig + Σ_k ([E_k ρ, C_k] + [C_k, ρ E_k†])/ħ²`, with the
dressed operator selected by the integrator stage index in the
time-dependent variant, for every state and every stage. -/
theorem eom_equals_redfield_formula {N nb : ℕ} (ev : Fin N → ℝ)
    (hbar : ℝ) (C E : Fin nb → Mat N) (Etd : Fin nb → ℕ → Mat N)
    (state : Mat N) :
    rf_eom ev hbar C E state = redfield_eom_formula ev hbar C E state ∧
    ∀ stage : ℕ, td_rf_eom ev hbar C Etd state stage =
      redfield_eom_formula ev hbar C (fun k => Etd k stage) state := by
  constructor
  · rw [rf_eom, redfield_eom_formula, foldl_add_eq_sum, Finset.smul_sum,
      Fin.sum_univ_def]
  · intro stage
    rw [td_rf_eom, redfield_eom_formula, foldl_add_eq_sum, Finset.smul_sum,
      Fin.sum_univ_def]

/-- State held by the integrator after its first `i` integrate() calls,
starting from the eigenbasis initial state. -/
def state_after {N : ℕ} (step : ℕ → Mat N → Mat N) (y0 : Mat N) :
    ℕ → Mat N
  | 0 => y0
  | i + 1 => step i (state_after step y0 i)

/-- The main loop of Redfield.solve: for each time index i in order,
sample the pre-step state (transformed back to the lab basis) whenever
`i % every == 0`, then advance the integrator by one step.  The abstract
`step` covers both the time-independent and the time-dependent variant
(where the engine refreshes its dressed operators before stepping; that
refresh never touches the integrator state that is sampled). -/
def solve_loop {N : ℕ} (step : ℕ → Mat N → Mat N)
    (from_eig : Mat N → Mat N) (every T : ℕ) (y0 : Mat N) :
    List (ℕ × Mat N) × Mat N :=
  (List.range T).foldl
    (fun acc i =>
      (if i % every == 0 then acc.1 ++ [(i, from_eig acc.2)] else acc.1,
       step i acc.2))
    ([], y0)

theorem solve_loop_succ {N : ℕ} (step : ℕ → Mat N → Mat N)
    (from_eig : Mat N → Mat N) (every T : ℕ) (y0 : Mat N) :
    solve_loop step from_eig every (T + 1) y0 =
      ((if T % every == 0
        then (solve_loop step from_eig every T y0).1 ++
          [(T, from_eig (solve_loop step from_eig every T y0).2)]
        else (solve_loop step from_eig every T y0).1),
       step T (solve_loop step from_eig every T y0).2) := by
  simp only [solve_loop, List.range_succ, List.foldl_append,
    List.foldl_cons, List.foldl_nil]

theorem solve_loop_state {N : ℕ} (step : ℕ → Mat N → Mat N)
    (from_eig : Mat N → Mat N) (every : ℕ) (y0 : Mat N) :
    ∀ T : ℕ, (solve_loop step from_eig every T y0).2 =
      state_after step y0 T := by
  intro T
  induction T with
  | zero => rfl
  | succ T ih => rw [solve_loop_succ, state_after, ih]

theorem solve_loop_samples {N : ℕ} (step : ℕ → Mat N → Mat N)
    (from_eig : Mat N → Mat N) (every : ℕ) (y0 : Mat N) :
    ∀ T : ℕ, (solve_loop step from_eig every T y0).1 =
      ((List.range T).filter fun i => i % every == 0).map
        fun i => (i, from_eig (state_after step y0 i)) := by
  intro T
  induction T with
  | zero => rfl
  | succ T ih =>
    rw [solve_loop_succ, List.range_succ, List.filter_append,
      List.map_append]
    by_cases hT : T % every == 0
    · simp only [hT, if_true, ih, solve_loop_state, List.filter_cons,
        List.filter_nil, hT, List.map_cons, List.map_nil]
    · simp only [hT, if_false, ih, List.filter_cons, List.filter_nil]
      simp [hT]

theorem length_filter_mod (k : ℕ) (hk : 0 < k) :
    ∀ T : ℕ, ((List.range T).filter fun i => i % k == 0).length =
      (T + k - 1) / k := by
  intro T
  induction T with
  | zero =>
    simp only [List.range_zero, List.filter_nil, List.length_nil]
    rw [Nat.div_eq_of_lt (by omega)]
  | succ T ih =>
    rw [List.range_succ, List.filter_append, List.length_append, ih]
    have h1 : T + 1 + k - 1 = T + k - 1 + 1 := by omega
    have h2 : T + k - 1 + 1 = T + k := by omega
    rw [h1, Nat.succ_div, h2]
    by_cases hd : k ∣ T
    · have hmod : T % k = 0 := Nat.dvd_iff_mod_eq_zero.mp hd
      simp [hmod, Nat.dvd_add_self_right.mpr hd]
    · have hmod : ¬ T % k = 0 := fun h =>
        hd (Nat.dvd_iff_mod_eq_zero.mpr h)
      have hd2 : ¬ k ∣ T + k := fun h =>
        hd (Nat.dvd_add_self_right.mp h)
      simp [hmod, hd2]

/-- C7: with sampling stride `every = k > 0`, the solve loop samples
exactly at the indices divisible by k, records for each sampled index
the pre-step state of that index transformed back to the lab basis, and
produces exactly `ceil(T/k) = (T+k-1)/k` entries over T time points. -/
theorem solve_loop_sampling {N : ℕ} (step : ℕ → Mat N → Mat N)
    (from_eig : Mat N → Mat N) (every T : ℕ) (y0 : Mat N)
    (hk : 0 < every) :
    (solve_loop step from_eig every T y0).1 =
      (((List.range T).filter fun i => i % every == 0).map
        fun i => (i, from_eig (state_after step y0 i))) ∧
    ((solve_loop step from_eig every T y0).1.map Prod.fst =
      (List.range T).filter fun i => i % every == 0) ∧
    (solve_loop step from_eig every T y0).1.length =
      (T + every - 1) / every := by
  have h := solve_loop_samples step from_eig every y0 T
  refine ⟨h, ?_, ?_⟩
  · rw [h, List.map_map]
    exact List.map_id' _
  · rw [h, List.length_map, length_filter_mod every hk T]

/-- Witness for C7: three time points with stride two yield
`ceil(3/2) = 2` samples. -/
theorem solve_loop_sampling_witness :
    (solve_loop (fun _ y => y) id 2 3 (0 : Mat 1)).1.length =
      (3 + 2 - 1) / 2 :=
  (solve_loop_sampling (fun _ y => y) id 2 3 (0 : Mat 1)
    (by norm_num)).2.2

/-- Redfield.setup / Redfield.solve method dispatch: an options method
of "exact" raises NotImplementedError at setup, before any stepping. -/
def setup_method (method : String) : Except String Unit :=
  if method = "exact" then Except.error "NotImplementedError"
  else Except.ok ()

/-- Redfield.solve including the method dispatch: setup runs before the
initial state is seeded or any step is taken, so an "exact" method
aborts the run with no samples produced. -/
def solve_dispatch {N : ℕ} (method : String) (step : ℕ → Mat N → Mat N)
    (from_eig : Mat N → Mat N) (every T : ℕ) (y0 : Mat N) :
    Except String (List (ℕ × Mat N) × Mat N) :=
  match setup_method method with
  | Except.error e => Except.error e
  | Except.ok _ => Except.ok (solve_loop step from_eig every T y0)

/-- C8: solving with method "exact" fails with the not-implemented error
and propagates no state, while any other method value passes setup
without this error and reaches the stepping loop. -/
theorem exact_method_not_implemented {N : ℕ} (step : ℕ → Mat N → Mat N)
    (from_eig : Mat N → Mat N) (every T : ℕ) (y0 : Mat N) :
    solve_dispatch "exact" step from_eig every T y0 =
      Except.error "NotImplementedError" ∧
    ∀ method : String, method ≠ "exact" →
      solve_dispatch method step from_eig every T y0 =
        Except.ok (solve_loop step from_eig every T y0) := by
  constructor
  · rfl
  · intro method hm
    simp [solve_dispatch, setup_method, hm]

/-- Witness for C8: the "rk4" method reaches the stepping loop. -/
theorem exact_method_not_implemented_witness :
    solve_dispatch "rk4" (fun _ y => y) id 1 1 (0 : Mat 1) =
      Except.ok (solve_loop (fun _ y => y) id 1 1 (0 : Mat 1)) :=
  (exact_method_not_implemented (fun _ y => y) id 1 1 (0 : Mat 1)).2
    "rk4" (by decide)

/-- The two concrete buffers touched by a solve call: the caller-owned
array passed as rho0, and the integrator-owned state.  In-place numpy
mutation is modelled as overwriting the owning field; `rho0.copy()`
followed by the basis transform allocates the engine's own value, so the
integrator seed is derived from, not aliased to, the caller's buffer. -/
structure SolveBuffers (N : ℕ) where
  rho0_buf : Mat N
  ode_y : Mat N

/-- Redfield.solve memory behaviour: seed the integrator with the
eigenbasis transform of a copy of rho0, then let every integrate() call
overwrite only the integrator's own buffer. -/
def solve_buffers {N : ℕ} (to_eigb : Mat N → Mat N)
    (step : ℕ → Mat N → Mat N) (T : ℕ) (rho0 : Mat N) : SolveBuffers N :=
  (List.range T).foldl
    (fun bufs i => { bufs with ode_y := step i bufs.ode_y })
    { rho0_buf := rho0, ode_y := to_eigb rho0 }

/-- C10: a solve call leaves the caller's rho0 argument unchanged: the
whole stepping loop writes only the integrator-owned buffer. -/
theorem solve_rho0_unchanged {N : ℕ} (to_eigb : Mat N → Mat N)
    (step : ℕ → Mat N → Mat N) (T : ℕ) (rho0 : Mat N) :
    (solve_buffers to_eigb step T rho0).rho0_buf = rho0 := by
  rw [solve_buffers]
  have h : ∀ (l : List ℕ) (bufs : SolveBuffers N),
      (l.foldl (fun bufs i => { bufs with ode_y := step i bufs.ode_y })
        bufs).rho0_buf = bufs.rho0_buf := by
    intro l
    induction l with
    | nil => intro bufs; rfl
    | cons x xs ih =>
      intro bufs
      rw [List.foldl_cons]
      exact ih _
  exact h _ _

end

end QDynos
